import Mathlib

/-!
Shallow embedding of the contour terminal-emulator core pieces referenced by
the specification: the OSC accumulator and parameter dispatch of
`BasicParserEvents`, the `MouseTracker` sequence handler, the
`TerminalSession` main loop / clipboard paste / buffer-capture permission
logic, and the `Line<Cell>` storage (trivial vs inflated) with its search
primitives.  Cells are modelled as single ASCII codepoints (one column wide),
which is the regime all the verified properties live in.
-/

namespace Contour

/-! ### OSC accumulation (`BasicParserEvents::putOSC` / `dispatchOSC`) -/

/-- Modelled from the spec: `Sequence::MaxOscLength` is declared in
`terminal/Sequence.h`, which is not among the sources here; the spec gives
the default 8192. -/
def MaxOscLength : Nat := 8192

/-- Embedding of `BasicParserEvents::putOSC`: the character is appended to the
sequence's intermediate-character buffer exactly when
`size() + 1 < MaxOscLength`; otherwise the state is unchanged. -/
def putOSC (c : Char) (buf : List Char) : List Char :=
  if buf.length + 1 < MaxOscLength then buf ++ [c] else buf

/-- Feeding a whole list of characters through `putOSC`, in order. -/
def putOSCs (cs : List Char) (buf : List Char) : List Char :=
  cs.foldl (fun b c => putOSC c b) buf

/-- Modelled from the spec: `parser::extractCodePrefix` is declared in
`terminal/Parser.h`, which is not among the sources here.  Per the spec's OSC
wire form (a numeric code, then `;`, then data) it returns the numeric code
parsed from the leading digits together with the number of leading characters
to skip (the digits plus the separator when present). -/
def extractCodePrefix (s : List Char) : Nat × Nat :=
  let ds := s.takeWhile (fun c => c.isDigit)
  let code := ds.foldl (fun a c => a * 10 + (c.toNat - 48)) 0
  let skip := ds.length + (match s.drop ds.length with | ';' :: _ => 1 | _ => 0)
  (code, skip)

/-- The observable outcome of `BasicParserEvents::dispatchOSC`: the numeric
code moved into parameter position and the remaining (truncated) data the
sequence handler sees. -/
structure OscDispatch where
  code : Nat
  data : List Char
deriving DecidableEq, Repr

/-- Embedding of `BasicParserEvents::dispatchOSC`: extract the numeric code
prefix, erase it from the intermediate characters, and invoke the handler on
what is left. -/
def dispatchOSC (buf : List Char) : OscDispatch :=
  { code := (extractCodePrefix buf).1, data := buf.drop (extractCodePrefix buf).2 }

/-! ### Parameter building (`BasicParserEvents::param` and friends) -/

/-- Modelled from the spec: `SequenceParameterBuilder` lives in
`terminal/Sequence.h`, which is not among the sources here.  The spec gives
its operations `multiplyBy10AndAdd`, `nextParameter`, `nextSubParameter`,
`fixate`, with empty parameters defaulting to 0.  The builder state is the
list of already finished parameter groups (each a parameter value followed by
its sub-parameter values), the finished sub-parameter values of the group
under construction, and the numeric value currently being built. -/
structure SequenceParameterBuilder where
  fixed : List (List Nat)
  curSubs : List Nat
  curValue : Nat
deriving DecidableEq, Repr

/-- Builder operation: multiply the value under construction by ten and add a
digit. -/
def multiplyBy10AndAdd (d : Nat) (b : SequenceParameterBuilder) : SequenceParameterBuilder :=
  { b with curValue := b.curValue * 10 + d }

/-- Builder operation: close the current parameter group and start a fresh
parameter whose value defaults to 0. -/
def nextParameter (b : SequenceParameterBuilder) : SequenceParameterBuilder :=
  { fixed := b.fixed ++ [b.curSubs ++ [b.curValue]], curSubs := [], curValue := 0 }

/-- Builder operation: close the current value as a sub-parameter of the
current group and start a fresh value defaulting to 0. -/
def nextSubParameter (b : SequenceParameterBuilder) : SequenceParameterBuilder :=
  { b with curSubs := b.curSubs ++ [b.curValue], curValue := 0 }

/-- Builder operation: fixate the built parameters, yielding the final
parameter list the sequence handler sees. -/
def fixiate (b : SequenceParameterBuilder) : List (List Nat) :=
  b.fixed ++ [b.curSubs ++ [b.curValue]]

/-- A freshly reset builder: one pending parameter whose value is 0. -/
def resetBuilder : SequenceParameterBuilder :=
  { fixed := [], curSubs := [], curValue := 0 }

/-- Embedding of `BasicParserEvents::paramDigit`: feed `c - '0'` to
`multiplyBy10AndAdd`. -/
def paramDigit (c : Char) (b : SequenceParameterBuilder) : SequenceParameterBuilder :=
  multiplyBy10AndAdd (c.toNat - '0'.toNat) b

/-- Embedding of `BasicParserEvents::param`: the `switch` on the input
character, with cases `';'`, `':'` and the ten digit characters `'0'`..`'9'`;
any other character falls through with no effect. -/
def param (c : Char) (b : SequenceParameterBuilder) : SequenceParameterBuilder :=
  if c = ';' then nextParameter b
  else if c = ':' then nextSubParameter b
  else if c = '0' ∨ c = '1' ∨ c = '2' ∨ c = '3' ∨ c = '4' ∨
          c = '5' ∨ c = '6' ∨ c = '7' ∨ c = '8' ∨ c = '9' then paramDigit c b
  else b

/-- Embedding of `BasicParserEvents::executeSequenceHandler`: fixate the built
parameters, then invoke the sequence handler on the result. -/
def executeSequenceHandler {α : Type} (handler : List (List Nat) → α)
    (b : SequenceParameterBuilder) : α :=
  handler (fixiate b)

/-! ### `MouseTracker::handleSequence` and DECRQM support checking -/

/-- The slice of `terminal::Sequence` the mouse tracker inspects: leader
symbol, intermediate characters, final character and the numeric parameters
(top-level values only; sub-parameters play no role here). -/
structure Sequence where
  leader : Char
  intermediates : List Char
  finalChar : Char
  parameters : List Int
deriving DecidableEq, Repr

/-- Modelled from the spec: `Sequence::param_or(i, default)` (declared in
`terminal/Sequence.h`, not among the sources here) returns parameter `i` when
present and the given default otherwise. -/
def Sequence.param_or (s : Sequence) (i : Nat) (d : Int) : Int :=
  (s.parameters.get? i).getD d

/-- Modelled from the spec: `Sequence::param(i)` returns parameter `i`
(defaulting to 0 when absent, per the spec's empty-parameter rule). -/
def Sequence.param (s : Sequence) (i : Nat) : Int :=
  (s.parameters.get? i).getD 0

/-- Embedding of `Sequence::parameterCount`. -/
def Sequence.parameterCount (s : Sequence) : Nat :=
  s.parameters.length

/-- The mutable fields of `MouseTracker` touched by `handleSequence`. -/
structure MouseTrackerState where
  line : Int
  column : Int
  decrpm : Option (Int × Int)
deriving DecidableEq, Repr

/-- The tracker state right after construction: `line = -1`, `column = -1`,
no DECRPM reply seen. -/
def initialTrackerState : MouseTrackerState :=
  { line := -1, column := -1, decrpm := none }

/-- Embedding of `MouseTracker::handleSequence`: an SGR mouse report
(leader `'<'`, final `'M'`) updates `column` from parameter 1 and `line` from
parameter 2 (defaulting to -2); a DECRPM reply (leader `'?'`, intermediates
`"$"`, final `'y'`, exactly two parameters) records `(param 0, param 1)` into
`decrpm`; anything else leaves the state unchanged. -/
def handleSequence (seq : Sequence) (st : MouseTrackerState) : MouseTrackerState :=
  if seq.leader = '<' ∧ seq.finalChar = 'M' then
    { st with column := seq.param_or 1 (-2), line := seq.param_or 2 (-2) }
  else if seq.leader = '?' ∧ seq.intermediates = ['$'] ∧ seq.finalChar = 'y' ∧
          seq.parameterCount = 2 then
    { st with decrpm := some (seq.param 0, seq.param 1) }
  else st

/-- Embedding of the support test inside
`MouseTracker::checkPassiveMouseTrackingSupport`: the mode is reported
supported exactly when the returned DECRPM state is 1 or 2. -/
def passiveMouseTrackingSupported (state : Int) : Bool :=
  state = 1 || state = 2

/-- Example input: an SGR release report `CSI < 0 ; 5 ; 7 m`. -/
def sgrReleaseSeq : Sequence :=
  { leader := '<', intermediates := [], finalChar := 'm', parameters := [0, 5, 7] }

/-- Example input: an SGR press report `CSI < 0 ; 12 ; 4 M`. -/
def sgrPressSeq : Sequence :=
  { leader := '<', intermediates := [], finalChar := 'M', parameters := [0, 12, 4] }

/-- Example input: a DECRPM reply `CSI ? 2022 ; 2 $ y`. -/
def decrpmSeq : Sequence :=
  { leader := '?', intermediates := ['$'], finalChar := 'y', parameters := [2022, 2] }

/-! ### `TerminalSession::mainLoop` -/

/-- The externally visible events of one `mainLoop` run: a call to
`Terminal::processInputOnce`, or the final `onClosed` callback. -/
inductive SessionEvent where
  | processInput : SessionEvent
  | closed : SessionEvent
deriving DecidableEq, Repr

/-- Embedding of the `TerminalSession::mainLoop` loop body.  Each schedule
entry is one loop iteration's environment: whether the `terminating_` flag is
observed set at the loop boundary, and what `processInputOnce()` returns if
called.  The result is `some` event trace when the loop exits within the
schedule (ending with the `onClosed` call), and `none` when the schedule runs
out with the loop still going. -/
def mainLoopEvents : List (Bool × Bool) → Option (List SessionEvent)
  | [] => none
  | (t, p) :: rest =>
    if t then some [SessionEvent.closed]
    else if p then (mainLoopEvents rest).map (fun evs => SessionEvent.processInput :: evs)
    else some [SessionEvent.processInput, SessionEvent.closed]

/-! ### `TerminalSession::pasteFromClipboard` and `normalize_crlf` -/

/-- First pass of `normalize_crlf` (non-Windows branch): the
`text.replace("\r\n", "\n")` call, which scans left to right and continues
after each replacement. -/
def replaceCRLF : List Char → List Char
  | '\r' :: '\n' :: rest => '\n' :: replaceCRLF rest
  | c :: rest => c :: replaceCRLF rest
  | [] => []

/-- Second pass of `normalize_crlf` (non-Windows branch): the
`.replace("\r", "\n")` call on the result of the first pass. -/
def replaceCRtoLF (s : List Char) : List Char :=
  s.map (fun c => if c = '\r' then '\n' else c)

/-- Embedding of `normalize_crlf` on non-Windows platforms: replace every
CRLF by LF, then every remaining CR by LF. -/
def normalize_crlf (s : List Char) : List Char :=
  replaceCRtoLF (replaceCRLF s)

/-- Claim-side normalization, written from the spec's words: every CRLF pair
and every lone CR is replaced by LF, in one left-to-right pass.  Kept separate
from `normalize_crlf` so the two can be compared. -/
def normalizeSpec : List Char → List Char
  | '\r' :: '\n' :: rest => '\n' :: normalizeSpec rest
  | '\r' :: rest => '\n' :: normalizeSpec rest
  | c :: rest => c :: normalizeSpec rest
  | [] => []

/-- Embedding of `TerminalSession::pasteFromClipboard(count)` given the
clipboard text: the normalized text is sent as a single paste — verbatim when
`count == 1`, otherwise concatenated `count` times — and nothing is sent when
the normalized text is empty.  The result is the content of the one paste
sent to the terminal, or `none` when no paste is sent. -/
def pasteFromClipboard (count : Nat) (clipboardText : List Char) : Option (List Char) :=
  let text := normalize_crlf clipboardText
  if text = [] then none
  else if count = 1 then some text
  else some (List.flatten (List.replicate count text))

/-! ### `TerminalSession::executePendingBufferCapture` -/

/-- Embedding of `CaptureBufferRequest`. -/
structure CaptureBufferRequest where
  lines : Nat
  logical : Bool
deriving DecidableEq, Repr

/-- The fields of `TerminalSession` touched by `executePendingBufferCapture`:
the pending request, the remembered permission for the `CaptureBuffer` role
(`none` when nothing is remembered), and the trace of screen captures
performed via `Screen::captureBuffer`. -/
structure CaptureState where
  pendingBufferCapture : Option CaptureBufferRequest
  rememberedCaptureBuffer : Option Bool
  capturedBuffers : List CaptureBufferRequest
deriving DecidableEq, Repr

/-- Embedding of `TerminalSession::executePendingBufferCapture(allow,
remember)`: record the decision when `remember` is set, bail out when no
request is pending, otherwise consume the pending request and perform the
capture only when `allow` is set. -/
def executePendingBufferCapture (allow remember : Bool) (st : CaptureState) : CaptureState :=
  let st1 := if remember then { st with rememberedCaptureBuffer := some allow } else st
  match st1.pendingBufferCapture with
  | none => st1
  | some capture =>
    let st2 := { st1 with pendingBufferCapture := none }
    if !allow then st2
    else { st2 with capturedBuffers := st2.capturedBuffers ++ [capture] }

/-! ### `Line<Cell>`: flags, storage, promotion, search

Cells are modelled as single ASCII codepoints (`Char`), one display column
each; graphics attributes are an arbitrary type parameter `Attr` since no
verified property inspects them. -/

/-- The `LineFlags` bits. -/
def LineFlags.None : Nat := 0

/-- The `Wrappable` bit of `LineFlags`. -/
def LineFlags.Wrappable : Nat := 1

/-- The `Wrapped` bit of `LineFlags`. -/
def LineFlags.Wrapped : Nat := 2

/-- The `Marked` bit of `LineFlags`. -/
def LineFlags.Marked : Nat := 4

/-- Embedding of `TrivialLineBuffer`: the compact line representation with a
display width, uniform text/fill attributes, a hyperlink id, and the used
prefix of raw text. -/
structure TrivialLineBuffer (Attr : Type) where
  displayWidth : Nat
  textAttributes : Attr
  fillAttributes : Attr
  hyperlink : Nat
  usedColumns : Nat
  text : List Char

/-- Embedding of `TrivialLineBuffer::reset`: install the given attributes and
clear hyperlink, used columns and text; the display width is kept. -/
def TrivialLineBuffer.reset {Attr : Type} (b : TrivialLineBuffer Attr) (a : Attr) :
    TrivialLineBuffer Attr :=
  { b with textAttributes := a, fillAttributes := a, hyperlink := 0,
           usedColumns := 0, text := [] }

/-- Embedding of `LineStorage<Cell>`: either the trivial buffer or the
inflated vector of cells. -/
inductive LineStorage (Attr : Type) where
  | trivialB (b : TrivialLineBuffer Attr) : LineStorage Attr
  | inflatedB (cells : List Char) : LineStorage Attr

/-- Modelled from the spec: `inflate` is only declared in `Line.h` (defined
elsewhere); per the spec it unpacks a trivial buffer into one cell per
display column — the stored text followed by blank cells — so that the
displayed width of the line equals the configured column count. -/
def inflate {Attr : Type} (b : TrivialLineBuffer Attr) : List Char :=
  b.text.take b.displayWidth ++ List.replicate (b.displayWidth - b.text.length) ' '

/-- Embedding of `Line<Cell>`: the storage variant plus the flag bits. -/
structure Line (Attr : Type) where
  storage : LineStorage Attr
  flags : Nat

/-- Embedding of `Line::isTrivialBuffer`. -/
def Line.isTrivialBuffer {Attr : Type} (l : Line Attr) : Bool :=
  match l.storage with
  | LineStorage.trivialB _ => true
  | LineStorage.inflatedB _ => false

/-- Embedding of `Line::isInflatedBuffer`. -/
def Line.isInflatedBuffer {Attr : Type} (l : Line Attr) : Bool :=
  !l.isTrivialBuffer

/-- Embedding of `Line::size`: the display width for trivial storage, the
number of cells for inflated storage. -/
def Line.size {Attr : Type} (l : Line Attr) : Nat :=
  match l.storage with
  | LineStorage.trivialB b => b.displayWidth
  | LineStorage.inflatedB cells => cells.length

/-- Embedding of the mutating `Line::inflatedBuffer`: when the storage is
still trivial it is replaced by the inflated cell vector first; the result is
the cell buffer together with the line afterwards. -/
def Line.inflatedBuffer {Attr : Type} (l : Line Attr) : List Char × Line Attr :=
  match l.storage with
  | LineStorage.trivialB b => (inflate b, { l with storage := LineStorage.inflatedB (inflate b) })
  | LineStorage.inflatedB cells => (cells, l)

/-- Embedding of `Line::reset(flags, attributes)`: install the flags; a
trivial buffer is reset in place, an inflated buffer is replaced by a fresh
trivial buffer whose display width is the inflated cell count. -/
def Line.reset {Attr : Type} (l : Line Attr) (fl : Nat) (a : Attr) : Line Attr :=
  match l.storage with
  | LineStorage.trivialB b =>
    { storage := LineStorage.trivialB (b.reset a), flags := fl }
  | LineStorage.inflatedB cells =>
    { storage := LineStorage.trivialB
        { displayWidth := cells.length, textAttributes := a, fillAttributes := a,
          hyperlink := 0, usedColumns := 0, text := [] },
      flags := fl }

/-- Embedding of `Line::isFlagEnabled`. -/
def Line.isFlagEnabled {Attr : Type} (l : Line Attr) (flag : Nat) : Bool :=
  l.flags &&& flag ≠ 0

/-- Embedding of `Line::marked`. -/
def Line.marked {Attr : Type} (l : Line Attr) : Bool :=
  l.isFlagEnabled LineFlags.Marked

/-- Embedding of `Line::wrapped`. -/
def Line.wrapped {Attr : Type} (l : Line Attr) : Bool :=
  l.isFlagEnabled LineFlags.Wrapped

/-- Embedding of `Line::wrappedFlag` exactly as written in the source: it
tests `marked()` (not `wrapped()`) before returning `LineFlags::Wrapped`. -/
def Line.wrappedFlag {Attr : Type} (l : Line Attr) : Nat :=
  if l.marked then LineFlags.Wrapped else LineFlags.None

/-- Embedding of `Line::markedFlag`. -/
def Line.markedFlag {Attr : Type} (l : Line Attr) : Nat :=
  if l.marked then LineFlags.Marked else LineFlags.None

/-! ### Line search primitives -/

/-- Embedding of `SearchResult` from `terminal/primitives.h`: the matched
column when a full match was found, and the number of pattern characters left
unmatched for a partial match hanging off the line end. -/
structure SearchResult where
  column : Option Nat := none
  remainingText : Nat := 0
deriving DecidableEq, Repr

/-- Fuel-driven scan behind `std::string_view::find(needle, pos)`: try the
candidate positions `i, i+1, ...` in order (the fuel counts how many are
left) and return the first where the needle occurs in full. -/
def strFindGo (hay needle : List Char) : Nat → Nat → Option Nat
  | 0, _ => none
  | fuel + 1, i =>
    if List.isPrefixOf needle (List.drop i hay) && decide (i ≤ hay.length) then some i
    else strFindGo hay needle fuel (i + 1)

/-- Embedding of `std::string_view::find(needle, pos)` (result as an index,
`none` for `npos`): the least `j ≥ pos` at which the needle occurs in full. -/
def strFindFrom (hay needle : List Char) (pos : Nat) : Option Nat :=
  strFindGo hay needle (hay.length + 1 - pos) pos

/-- Embedding of the trivial-storage branch of `Line::search`: an unused line
yields an empty result; otherwise the start column is clamped to the last
used column and the text view is scanned from there. -/
def searchTrivial {Attr : Type} (b : TrivialLineBuffer Attr) (text : List Char)
    (startColumn : Nat) : SearchResult :=
  if b.usedColumns = 0 then {}
  else
    match strFindFrom b.text text (min startColumn (b.usedColumns - 1)) with
    | some i => { column := some i }
    | none => {}

/-- Modelled from the spec: `CellUtil::beginsWith(text, cell)` (from
`terminal/CellUtil.h`, not among the sources here) tests whether the cell's
codepoint begins the given text; with single-codepoint cells that is equality
with the first character. -/
def beginsWith (text : List Char) (cell : Char) : Bool :=
  match text with
  | [] => false
  | c :: _ => c = cell

/-- The character-comparison loop inside the inflated branch of
`Line::matchTextAt`: position `i` of the text is compared against cell
`base + i`. -/
def matchCellsFrom (cells : List Char) : List Char → Nat → Bool
  | [], _ => true
  | c :: rest, i => beginsWith (c :: rest) (cells.getD i ' ') && matchCellsFrom cells rest (i + 1)

/-- Embedding of the inflated branch of `Line::matchTextAt`: fail when the
text cannot fit between the start column and the line end, otherwise compare
cell by cell. -/
def matchTextAtInflated (cells text : List Char) (startColumn : Nat) : Bool :=
  if (text.length : Int) > (cells.length : Int) - (startColumn : Int) then false
  else matchCellsFrom cells text startColumn

/-- Fuel-driven embedding of the scan loop in the inflated branch of
`Line::search`: walk `baseColumn` rightwards; near the line end the text is
truncated in place (`remove_suffix`) and a surviving match is reported as a
partial result with the count of unmatched characters. -/
def searchInflatedGo (cells : List Char) (origLen : Nat) : Nat → List Char → Nat → SearchResult
  | 0, _, _ => {}
  | fuel + 1, text, base =>
    if base < cells.length then
      if cells.length - base < text.length then
        if matchTextAtInflated cells (text.take (cells.length - base)) base then
          { column := none, remainingText := origLen - (cells.length - base) }
        else searchInflatedGo cells origLen fuel (text.take (cells.length - base)) (base + 1)
      else if matchTextAtInflated cells text base then { column := some base }
      else searchInflatedGo cells origLen fuel text (base + 1)
    else {}

/-- Embedding of the inflated branch of `Line::search`. -/
def searchInflated (cells text : List Char) (startColumn : Nat) : SearchResult :=
  if cells.length < text.length then {}
  else searchInflatedGo cells text.length (cells.length - startColumn) text startColumn

/-- Embedding of `Line::search(text, startColumn)`. -/
def Line.search {Attr : Type} (l : Line Attr) (text : List Char) (startColumn : Nat) :
    SearchResult :=
  match l.storage with
  | LineStorage.trivialB b => searchTrivial b text startColumn
  | LineStorage.inflatedB cells => searchInflated cells text startColumn

/-- The character content a search runs over: the used text for trivial
storage, the cells for inflated storage. -/
def Line.chars {Attr : Type} (l : Line Attr) : List Char :=
  match l.storage with
  | LineStorage.trivialB b => b.text
  | LineStorage.inflatedB cells => cells

/-- Claim-side definition, written from the spec's words: the column of the
first (leftmost) full occurrence of the text at or after the start column,
or `none` when there is no such occurrence. -/
def firstOccurrenceAux (hay text : List Char) (start : Nat) : Option Nat :=
  (List.range (hay.length + 1)).find?
    (fun j => decide (start ≤ j) && List.isPrefixOf text (hay.drop j))

/-- Example line for the search claims: trivial storage, display width 10,
3 used columns holding `"aba"`. -/
def exTrivialBuffer : TrivialLineBuffer Unit :=
  { displayWidth := 10, textAttributes := (), fillAttributes := (),
    hyperlink := 0, usedColumns := 3, text := ['a', 'b', 'a'] }

/-- The example line wrapping `exTrivialBuffer`, with no flags set. -/
def exTrivialLine : Line Unit :=
  { storage := LineStorage.trivialB exTrivialBuffer, flags := 0 }

/-- Example line with only the `Marked` flag set. -/
def exMarkedLine : Line Unit :=
  { storage := LineStorage.inflatedB [], flags := LineFlags.Marked }

/-- Example line with only the `Wrapped` flag set. -/
def exWrappedLine : Line Unit :=
  { storage := LineStorage.inflatedB [], flags := LineFlags.Wrapped }

/-- Example capture state with one pending buffer-capture request. -/
def exCaptureState : CaptureState :=
  { pendingBufferCapture := some { lines := 10, logical := true },
    rememberedCaptureBuffer := none, capturedBuffers := [] }

/-! ## Theorems -/

/-! ### Helper lemmas -/

/-- Feeding characters into a full-to-capacity OSC buffer leaves it alone. -/
theorem putOSCs_of_full (cs : List Char) (b : List Char)
    (hb : b.length = MaxOscLength - 1) : putOSCs cs b = b := by
  induction cs with
  | nil => rfl
  | cons c cs ih =>
    have hdrop : putOSC c b = b := by
      unfold putOSC
      rw [if_neg]
      simp only [MaxOscLength] at hb ⊢
      omega
    simpa [putOSCs, hdrop] using ih

/-- Running `putOSC` over a character list appends exactly the part of it
that fits into the remaining capacity. -/
theorem putOSCs_eq_take (cs : List Char) (b : List Char)
    (hb : b.length ≤ MaxOscLength - 1) :
    putOSCs cs b = b ++ cs.take (MaxOscLength - 1 - b.length) := by
  induction cs generalizing b with
  | nil => simp [putOSCs]
  | cons c cs ih =>
    by_cases h : b.length + 1 < MaxOscLength
    · have hstep : putOSC c b = b ++ [c] := by
        unfold putOSC
        rw [if_pos h]
      have hlen : (b ++ [c]).length ≤ MaxOscLength - 1 := by
        simp only [List.length_append, List.length_singleton, MaxOscLength] at *
        omega
      have hrec := ih (b ++ [c]) hlen
      have harith : MaxOscLength - 1 - b.length = (MaxOscLength - 1 - (b ++ [c]).length) + 1 := by
        simp only [List.length_append, List.length_singleton, MaxOscLength] at *
        omega
      calc putOSCs (c :: cs) b = putOSCs cs (putOSC c b) := rfl
        _ = putOSCs cs (b ++ [c]) := by rw [hstep]
        _ = (b ++ [c]) ++ cs.take (MaxOscLength - 1 - (b ++ [c]).length) := hrec
        _ = b ++ (c :: cs).take (MaxOscLength - 1 - b.length) := by
            rw [harith, List.take_succ_cons, List.append_assoc]
            rfl
    · have hfull : b.length = MaxOscLength - 1 := by
        simp only [MaxOscLength] at *
        omega
      have hstep : putOSC c b = b := by
        unfold putOSC
        rw [if_neg h]
      have htail := putOSCs_of_full cs b hfull
      have : MaxOscLength - 1 - b.length = 0 := by omega
      calc putOSCs (c :: cs) b = putOSCs cs (putOSC c b) := rfl
        _ = b := by rw [hstep]; exact htail
        _ = b ++ (c :: cs).take (MaxOscLength - 1 - b.length) := by rw [this]; simp

/-! ### C1: OSC accumulation bound -/

/-- C1 counterexample: a buffer holding `MaxOscLength - 1` characters holds
fewer than `MaxOscLength` characters, yet `putOSC` discards the next
character instead of appending it (appending would have changed the buffer).
So the claimed capacity of `MaxOscLength` is off by one. -/
theorem putOSC_drops_below_MaxOscLength :
    (List.replicate (MaxOscLength - 1) 'x').length < MaxOscLength ∧
    putOSC 'a' (List.replicate (MaxOscLength - 1) 'x') =
      List.replicate (MaxOscLength - 1) 'x' ∧
    List.replicate (MaxOscLength - 1) 'x' ++ ['a'] ≠
      List.replicate (MaxOscLength - 1) 'x' := by
  refine ⟨?_, ?_, ?_⟩
  · simp only [List.length_replicate, MaxOscLength]
    norm_num
  · simp only [putOSC, List.length_replicate, MaxOscLength]
    norm_num
  · intro h
    have := congrArg List.length h
    simp only [List.length_append, List.length_replicate, List.length_singleton] at this
    omega

/-- C1 (amended): `putOSC` accepts up to `MaxOscLength - 1` bytes.  A
character is appended exactly while the buffer holds fewer than
`MaxOscLength - 1` characters, so feeding any character sequence into an
empty buffer keeps its first `MaxOscLength - 1` characters and silently drops
the rest with no other state change; `dispatchOSC` still dispatches the
sequence with the truncated data. -/
theorem putOSC_truncates_at_MaxOscLength_minus_one (cs : List Char) :
    putOSCs cs [] = cs.take (MaxOscLength - 1) ∧
    (∀ (buf : List Char) (c : Char),
      MaxOscLength - 1 ≤ buf.length → putOSC c buf = buf) ∧
    dispatchOSC (putOSCs cs []) = dispatchOSC (cs.take (MaxOscLength - 1)) := by
  have h1 : putOSCs cs [] = cs.take (MaxOscLength - 1) := by
    simpa using putOSCs_eq_take cs [] (by simp)
  refine ⟨h1, ?_, by rw [h1]⟩
  intro buf c hlen
  unfold putOSC
  rw [if_neg]
  simp only [MaxOscLength] at hlen ⊢
  omega

/-- C1 witness: the amended theorem applied at a one-character input and at a
concrete full buffer. -/
theorem putOSC_truncates_witness :
    putOSCs ['a'] [] = (['a']).take (MaxOscLength - 1) ∧
    putOSC 'b' (List.replicate (MaxOscLength - 1) 'x') =
      List.replicate (MaxOscLength - 1) 'x' :=
  ⟨(putOSC_truncates_at_MaxOscLength_minus_one ['a']).1,
   (putOSC_truncates_at_MaxOscLength_minus_one ['a']).2.1
     (List.replicate (MaxOscLength - 1) 'x') 'b' (by simp)⟩

/-! ### C2: parameter dispatch of `BasicParserEvents::param` -/

/-- C2: `param` performs exactly one builder operation per character — a
digit feeds `multiplyBy10AndAdd (c - '0')`, `';'` calls `nextParameter`,
`':'` calls `nextSubParameter`, and any other character changes nothing —
and `executeSequenceHandler` hands the handler the fixated parameters. -/
theorem param_single_builder_operation (c : Char) (b : SequenceParameterBuilder) :
    ((c = '0' ∨ c = '1' ∨ c = '2' ∨ c = '3' ∨ c = '4' ∨
      c = '5' ∨ c = '6' ∨ c = '7' ∨ c = '8' ∨ c = '9') →
      param c b = multiplyBy10AndAdd (c.toNat - '0'.toNat) b) ∧
    (c = ';' → param c b = nextParameter b) ∧
    (c = ':' → param c b = nextSubParameter b) ∧
    (¬(c = '0' ∨ c = '1' ∨ c = '2' ∨ c = '3' ∨ c = '4' ∨
       c = '5' ∨ c = '6' ∨ c = '7' ∨ c = '8' ∨ c = '9') → c ≠ ';' → c ≠ ':' →
      param c b = b) ∧
    (∀ handler : List (List Nat) → List (List Nat),
      executeSequenceHandler handler b = handler (fixiate b)) := by
  refine ⟨?_, ?_, ?_, ?_, fun _ => rfl⟩
  · intro h
    rcases h with h | h | h | h | h | h | h | h | h | h <;> subst h <;> rfl
  · intro h; subst h; rfl
  · intro h; subst h; rfl
  · intro h1 h2 h3
    simp [param, h1, h2, h3]

/-- C2 witness: at `'5'` on a fresh builder, one `multiplyBy10AndAdd`. -/
theorem param_single_builder_operation_witness :
    param '5' resetBuilder = multiplyBy10AndAdd ('5'.toNat - '0'.toNat) resetBuilder :=
  (param_single_builder_operation '5' resetBuilder).1 (by decide)

/-! ### C3: SGR mouse reports in `MouseTracker::handleSequence` -/

/-- C3 counterexample: the SGR release report `CSI < 0 ; 5 ; 7 m` (final
character `'m'`) leaves the tracker untouched, although the claim says a
release report sets `column` to parameter 1 (here 5). -/
theorem handleSequence_ignores_release :
    handleSequence sgrReleaseSeq initialTrackerState = initialTrackerState ∧
    (handleSequence sgrReleaseSeq initialTrackerState).column ≠
      sgrReleaseSeq.param_or 1 (-2) := by
  decide

/-- C3 (amended): only SGR press/motion reports — leader `'<'` and final
character `'M'` — update the tracker, setting `column` from parameter 1 and
`line` from parameter 2 with a missing parameter defaulting to -2 (parameter
0 holds the button states); release reports (final `'m'`) leave the tracker
state unchanged. -/
theorem handleSequence_sgr_press_updates (seq : Sequence) (st : MouseTrackerState)
    (hl : seq.leader = '<') :
    (seq.finalChar = 'M' →
      (handleSequence seq st).column = seq.param_or 1 (-2) ∧
      (handleSequence seq st).line = seq.param_or 2 (-2) ∧
      (handleSequence seq st).decrpm = st.decrpm) ∧
    (seq.finalChar = 'm' → handleSequence seq st = st) := by
  constructor
  · intro hf
    simp [handleSequence, hl, hf]
  · intro hf
    simp [handleSequence, hl, hf]

/-- C3 witness: the press report `CSI < 0 ; 12 ; 4 M` sets column 12 and
line 4. -/
theorem handleSequence_sgr_press_witness :
    (handleSequence sgrPressSeq initialTrackerState).column =
      sgrPressSeq.param_or 1 (-2) ∧
    (handleSequence sgrPressSeq initialTrackerState).line =
      sgrPressSeq.param_or 2 (-2) ∧
    (handleSequence sgrPressSeq initialTrackerState).decrpm =
      initialTrackerState.decrpm :=
  (handleSequence_sgr_press_updates sgrPressSeq initialTrackerState rfl).1 rfl

/-! ### C4: DECRPM recording and support predicate -/

/-- C4: `handleSequence` records `(Pd, Ps)` into `_decrpm` exactly for
sequences with leader `'?'`, intermediates `"$"`, final `'y'` and exactly two
parameters, leaves `_decrpm` unchanged for every other sequence, and the
passive-mouse-tracking support check accepts exactly the states 1 and 2. -/
theorem handleSequence_decrpm (seq : Sequence) (st : MouseTrackerState) :
    ((seq.leader = '?' ∧ seq.intermediates = ['$'] ∧ seq.finalChar = 'y' ∧
      seq.parameterCount = 2) →
      (handleSequence seq st).decrpm = some (seq.param 0, seq.param 1)) ∧
    (¬(seq.leader = '?' ∧ seq.intermediates = ['$'] ∧ seq.finalChar = 'y' ∧
       seq.parameterCount = 2) →
      (handleSequence seq st).decrpm = st.decrpm) ∧
    (∀ s : Int, passiveMouseTrackingSupported s = true ↔ (s = 1 ∨ s = 2)) := by
  refine ⟨?_, ?_, ?_⟩
  · intro hc
    have hq : seq.leader = '?' := hc.1
    have : ¬(seq.leader = '<' ∧ seq.finalChar = 'M') := by
      intro h
      rw [hq] at h
      exact absurd h.1 (by decide)
    simp [handleSequence, this, hc]
  · intro hc
    unfold handleSequence
    by_cases h1 : seq.leader = '<' ∧ seq.finalChar = 'M'
    · rw [if_pos h1]
    · rw [if_neg h1, if_neg hc]
  · intro s
    simp [passiveMouseTrackingSupported]

/-- C4 witness: the reply `CSI ? 2022 ; 2 $ y` is recorded as `(2022, 2)` and
state 2 counts as supported. -/
theorem handleSequence_decrpm_witness :
    (handleSequence decrpmSeq initialTrackerState).decrpm =
      some (decrpmSeq.param 0, decrpmSeq.param 1) ∧
    (passiveMouseTrackingSupported 2 = true ↔ ((2 : Int) = 1 ∨ (2 : Int) = 2)) :=
  ⟨(handleSequence_decrpm decrpmSeq initialTrackerState).1 ⟨rfl, rfl, rfl, rfl⟩,
   (handleSequence_decrpm decrpmSeq initialTrackerState).2.2 2⟩

/-! ### C5: main loop exit and the one-shot `onClosed` -/

/-- Every completed main-loop run is some number of `processInputOnce` calls
followed by the single `onClosed` call. -/
theorem mainLoopEvents_shape (sched : List (Bool × Bool)) (evs : List SessionEvent)
    (h : mainLoopEvents sched = some evs) :
    ∃ k, evs = List.replicate k SessionEvent.processInput ++ [SessionEvent.closed] := by
  induction sched generalizing evs with
  | nil => simp [mainLoopEvents] at h
  | cons hd tl ih =>
    obtain ⟨t, p⟩ := hd
    cases t
    · cases p
      · simp only [mainLoopEvents, if_neg Bool.false_ne_true, Bool.false_eq_true,
          if_false] at h
        injection h with h
        exact ⟨1, h.symm⟩
      · simp only [mainLoopEvents, Bool.false_eq_true, if_false, if_true,
          Option.map_eq_some'] at h
        obtain ⟨evs', hevs', rfl⟩ := h
        obtain ⟨k, rfl⟩ := ih evs' hevs'
        exact ⟨k + 1, by simp [List.replicate_succ]⟩
    · simp only [mainLoopEvents, if_true] at h
      injection h with h
      exact ⟨0, h.symm⟩

/-- C5: the loop in `TerminalSession::mainLoop` exits exactly when the
`terminating_` flag is observed set at a loop boundary or
`processInputOnce()` returns false, and every completed run performs the
`onClosed` callback exactly once, strictly after all input processing. -/
theorem mainLoop_exit_and_onClosed_once (sched : List (Bool × Bool)) :
    ((mainLoopEvents sched).isSome = true ↔
      ∃ pr ∈ sched, pr.1 = true ∨ pr.2 = false) ∧
    (∀ evs, mainLoopEvents sched = some evs →
      evs.count SessionEvent.closed = 1 ∧
      evs = List.replicate (evs.length - 1) SessionEvent.processInput ++
        [SessionEvent.closed]) := by
  constructor
  · induction sched with
    | nil => simp [mainLoopEvents]
    | cons hd tl ih =>
      obtain ⟨t, p⟩ := hd
      cases t
      · cases p
        · simp [mainLoopEvents]
        · simpa [mainLoopEvents] using ih
      · simp [mainLoopEvents]
  · intro evs h
    obtain ⟨k, rfl⟩ := mainLoopEvents_shape sched evs h
    constructor
    · simp [List.count_append, List.count_replicate]
    · simp [List.length_append, List.length_replicate]

/-- C5 witness: one successful input round, then the flag is observed. -/
theorem mainLoop_exit_witness :
    (mainLoopEvents [(false, true), (true, true)] =
      some [SessionEvent.processInput, SessionEvent.closed]) ∧
    ([SessionEvent.processInput, SessionEvent.closed].count SessionEvent.closed = 1 ∧
     [SessionEvent.processInput, SessionEvent.closed] =
       List.replicate ([SessionEvent.processInput, SessionEvent.closed].length - 1)
         SessionEvent.processInput ++ [SessionEvent.closed]) :=
  ⟨rfl, (mainLoop_exit_and_onClosed_once [(false, true), (true, true)]).2
    [SessionEvent.processInput, SessionEvent.closed] rfl⟩

/-! ### C9: clipboard paste normalization -/

/-- The two sequential replacements of `normalize_crlf` agree with the
one-pass normalization that maps every CRLF and every lone CR to LF. -/
theorem normalize_crlf_eq_spec (s : List Char) : normalize_crlf s = normalizeSpec s := by
  unfold normalize_crlf
  induction s using normalizeSpec.induct <;>
    simp_all [replaceCRLF, replaceCRtoLF, normalizeSpec]

/-- C9: `pasteFromClipboard(count)` sends exactly one paste holding the
normalized clipboard text (CRLF and lone CR turned into LF) concatenated
`count` times, and sends nothing when the normalized text is empty. -/
theorem pasteFromClipboard_sends_normalized (count : Nat) (clipboardText : List Char) :
    pasteFromClipboard count clipboardText =
      if normalizeSpec clipboardText = [] then none
      else some (List.flatten (List.replicate count (normalizeSpec clipboardText))) := by
  unfold pasteFromClipboard
  rw [normalize_crlf_eq_spec]
  by_cases he : normalizeSpec clipboardText = []
  · simp [he]
  · by_cases hc : count = 1
    · subst hc
      simp [he]
    · simp [he, hc]

/-! ### C10: pending buffer-capture consumption -/

/-- C10: `executePendingBufferCapture(allow, remember)` always leaves no
pending request behind; the capture is performed exactly when `allow` holds
and a request was pending; and `remember` records the decision for the
`CaptureBuffer` role even when nothing was pending. -/
theorem executePendingBufferCapture_spec (allow remember : Bool) (st : CaptureState) :
    (executePendingBufferCapture allow remember st).pendingBufferCapture = none ∧
    (∀ c, allow = true → st.pendingBufferCapture = some c →
      (executePendingBufferCapture allow remember st).capturedBuffers =
        st.capturedBuffers ++ [c]) ∧
    ((allow = false ∨ st.pendingBufferCapture = none) →
      (executePendingBufferCapture allow remember st).capturedBuffers =
        st.capturedBuffers) ∧
    (remember = true →
      (executePendingBufferCapture allow remember st).rememberedCaptureBuffer =
        some allow) ∧
    (remember = false →
      (executePendingBufferCapture allow remember st).rememberedCaptureBuffer =
        st.rememberedCaptureBuffer) := by
  obtain ⟨pending, rem, caps⟩ := st
  cases pending <;> cases allow <;> cases remember <;>
    simp [executePendingBufferCapture]

/-- C10 witness: an allowed, remembered capture with one pending request. -/
theorem executePendingBufferCapture_witness :
    (executePendingBufferCapture true true exCaptureState).pendingBufferCapture = none ∧
    (executePendingBufferCapture true true exCaptureState).capturedBuffers =
      exCaptureState.capturedBuffers ++ [{ lines := 10, logical := true }] ∧
    (executePendingBufferCapture true true exCaptureState).rememberedCaptureBuffer =
      some true :=
  ⟨(executePendingBufferCapture_spec true true exCaptureState).1,
   (executePendingBufferCapture_spec true true exCaptureState).2.1
     { lines := 10, logical := true } rfl rfl,
   (executePendingBufferCapture_spec true true exCaptureState).2.2.2.1 rfl⟩

/-! ### C7: line width preservation and promotion idempotence -/

/-- The inflated form of a trivial buffer has exactly `displayWidth` cells. -/
theorem inflate_length {Attr : Type} (b : TrivialLineBuffer Attr) :
    (inflate b).length = b.displayWidth := by
  simp only [inflate, List.length_append, List.length_take, List.length_replicate]
  omega

/-- C7: `size()` is preserved by `reset(flags, attributes)`; promoting a
trivially stored line with `inflatedBuffer()` yields inflated storage with
exactly `displayWidth` cells and the same `size()`; and promotion is
idempotent — a second `inflatedBuffer()` call returns the same buffer and
leaves the storage untouched. -/
theorem line_size_preserved {Attr : Type} (l : Line Attr) (fl : Nat) (a : Attr) :
    (l.reset fl a).size = l.size ∧
    (∀ b, l.storage = LineStorage.trivialB b →
      (l.inflatedBuffer.2.isInflatedBuffer = true ∧
       l.inflatedBuffer.1.length = b.displayWidth ∧
       l.inflatedBuffer.2.size = l.size)) ∧
    l.inflatedBuffer.2.inflatedBuffer = (l.inflatedBuffer.1, l.inflatedBuffer.2) := by
  obtain ⟨storage, flags⟩ := l
  cases storage with
  | trivialB b =>
    refine ⟨rfl, ?_, rfl⟩
    intro b' hb'
    injection hb' with hb
    subst hb
    exact ⟨rfl, inflate_length b, by simp [Line.inflatedBuffer, Line.size, inflate_length]⟩
  | inflatedB cells =>
    refine ⟨rfl, ?_, rfl⟩
    intro b' hb'
    simp at hb'

/-- C7 witness: promoting the example trivial line of display width 10. -/
theorem line_size_preserved_witness :
    exTrivialLine.inflatedBuffer.2.isInflatedBuffer = true ∧
    exTrivialLine.inflatedBuffer.1.length = exTrivialBuffer.displayWidth ∧
    exTrivialLine.inflatedBuffer.2.size = exTrivialLine.size :=
  (line_size_preserved exTrivialLine 0 ()).2.1 exTrivialBuffer rfl

/-! ### C6 machinery: first-occurrence characterisation of the search scans -/

/-- Two `find?` scans agree when their predicates agree on the list. -/
theorem find?_congrOnMem {α : Type} (l : List α) (p q : α → Bool)
    (h : ∀ a ∈ l, p a = q a) : l.find? p = l.find? q := by
  induction l with
  | nil => rfl
  | cons a l ih =>
    have ha := h a (List.mem_cons_self a l)
    rw [List.find?_cons, List.find?_cons, ha]
    cases q a
    · exact ih fun x hx => h x (List.mem_cons_of_mem a hx)
    · rfl

/-- A lower-bound guard inside the predicate is the same as starting the
`range'` scan at the bound. -/
theorem find?_range'_shift (P : Nat → Bool) :
    ∀ (s b c : Nat),
      (List.range' b (s + c)).find? (fun j => decide (b + s ≤ j) && P j) =
      (List.range' (b + s) c).find? P := by
  intro s
  induction s with
  | zero =>
    intro b c
    simp only [Nat.zero_add, Nat.add_zero]
    apply find?_congrOnMem
    intro j hj
    have := (List.mem_range'_1.mp hj).1
    simp [this]
  | succ s ih =>
    intro b c
    have h1 : s + 1 + c = (s + c) + 1 := by omega
    rw [h1, List.range'_succ b (s + c) 1, List.find?_cons]
    have h2 : (decide (b + (s + 1) ≤ b) && P b) = false := by
      simp
    rw [h2]
    have h3 : b + (s + 1) = (b + 1) + s := by omega
    rw [h3]
    exact ih (b + 1) c

/-- The fuel-driven scan `strFindGo` is a `find?` over the candidate
positions. -/
theorem strFindGo_eq_find? (hay nd : List Char) :
    ∀ (fuel i : Nat),
      strFindGo hay nd fuel i =
      (List.range' i fuel).find?
        (fun j => List.isPrefixOf nd (hay.drop j) && decide (j ≤ hay.length)) := by
  intro fuel
  induction fuel with
  | zero => intro i; rfl
  | succ fuel ih =>
    intro i
    rw [List.range'_succ i fuel 1, List.find?_cons]
    simp only [strFindGo]
    cases hp : (List.isPrefixOf nd (List.drop i hay) && decide (i ≤ hay.length))
    · exact ih (i + 1)
    · rfl

/-- A pattern longer than the remaining text is never a prefix of it. -/
theorem isPrefixOf_eq_false_of_longer (text l : List Char) (h : l.length < text.length) :
    List.isPrefixOf text l = false := by
  rw [Bool.eq_false_iff]
  intro hc
  have := List.IsPrefix.length_le (List.isPrefixOf_iff_prefix.mp hc)
  omega

/-- `strFindFrom` returns exactly the first full occurrence at or after the
start position. -/
theorem strFindFrom_eq_firstOccurrence (hay nd : List Char) (pos : Nat) :
    strFindFrom hay nd pos = firstOccurrenceAux hay nd pos := by
  unfold strFindFrom firstOccurrenceAux
  by_cases hpos : pos ≤ hay.length
  · rw [strFindGo_eq_find?, List.range_eq_range']
    have hsplit : hay.length + 1 = pos + (hay.length + 1 - pos) := by omega
    rw [hsplit]
    have hshift := find?_range'_shift
      (fun j => List.isPrefixOf nd (hay.drop j)) pos 0 (hay.length + 1 - pos)
    simp only [Nat.zero_add] at hshift
    rw [hshift]
    simp only [Nat.add_sub_cancel_left]
    apply find?_congrOnMem
    intro j hj
    have hlt := (List.mem_range'_1.mp hj).2
    have hle : j ≤ hay.length := by omega
    simp [hle]
  · have hz : hay.length + 1 - pos = 0 := by omega
    rw [hz]
    show (none : Option Nat) = _
    symm
    rw [List.find?_eq_none]
    intro j hj
    have := List.mem_range.mp hj
    simp only [Bool.and_eq_true, decide_eq_true_eq, not_and]
    intro hsj
    omega

/-- The trivial-storage branch of `Line::search` reports exactly the first
occurrence at or after the clamped start column. -/
theorem searchTrivial_eq {Attr : Type} (b : TrivialLineBuffer Attr) (text : List Char)
    (start : Nat) (htext : text ≠ []) (hwf : b.text.length = b.usedColumns) :
    (searchTrivial b text start).column =
      firstOccurrenceAux b.text text (min start (b.usedColumns - 1)) := by
  unfold searchTrivial
  by_cases h0 : b.usedColumns = 0
  · rw [if_pos h0]
    have hnil : b.text = [] := List.eq_nil_of_length_eq_zero (by omega)
    show (none : Option Nat) = _
    symm
    unfold firstOccurrenceAux
    rw [List.find?_eq_none]
    intro j hj
    simp only [Bool.and_eq_true, decide_eq_true_eq, not_and]
    intro hsj
    rw [hnil]
    simp only [List.drop_nil]
    cases text with
    | nil => exact absurd rfl htext
    | cons c cs => simp [List.isPrefixOf]
  · rw [if_neg h0, strFindFrom_eq_firstOccurrence]
    cases hfo : firstOccurrenceAux b.text text (min start (b.usedColumns - 1)) <;>
      simp [hfo]

/-- The cell-comparison loop agrees with `isPrefixOf` when the text fits. -/
theorem matchCellsFrom_eq (cells : List Char) :
    ∀ (text : List Char) (base : Nat), base + text.length ≤ cells.length →
      matchCellsFrom cells text base = List.isPrefixOf text (cells.drop base) := by
  intro text
  induction text with
  | nil => intro base h; simp [matchCellsFrom, List.isPrefixOf]
  | cons c rest ih =>
    intro base h
    have hb : base < cells.length := by
      simp only [List.length_cons] at h
      omega
    have ih' := ih (base + 1) (by simp only [List.length_cons] at h; omega)
    rw [List.drop_eq_getElem_cons hb]
    simp only [matchCellsFrom, beginsWith, List.isPrefixOf_cons₂,
      List.getD_eq_getElem cells ' ' hb, ih']
    cases hc : (c == cells[base]) <;> simp_all

/-- The inflated `matchTextAt` is exactly a prefix test when the text fits
between the start column and the line end. -/
theorem matchTextAtInflated_eq (cells text : List Char) (base : Nat)
    (h : base + text.length ≤ cells.length) :
    matchTextAtInflated cells text base = List.isPrefixOf text (cells.drop base) := by
  unfold matchTextAtInflated
  rw [if_neg, matchCellsFrom_eq cells text base h]
  omega

/-- Once the scan has entered the zone where the (possibly already truncated)
text no longer fits, no full-match column is ever reported. -/
theorem searchInflatedGo_partial_none (cells : List Char) (origLen : Nat) :
    ∀ (fuel : Nat) (text : List Char) (base : Nat),
      cells.length - base < text.length →
      (searchInflatedGo cells origLen fuel text base).column = none := by
  intro fuel
  induction fuel with
  | zero => intro text base h; rfl
  | succ fuel ih =>
    intro text base h
    simp only [searchInflatedGo]
    by_cases hb : base < cells.length
    · rw [if_pos hb, if_pos h]
      by_cases hm : matchTextAtInflated cells (text.take (cells.length - base)) base = true
      · rw [if_pos hm]
      · rw [if_neg hm]
        apply ih
        simp only [List.length_take]
        omega
    · rw [if_neg hb]

/-- The inflated scan loop computes the first full occurrence among its
candidate positions. -/
theorem searchInflatedGo_eq_find? (cells text : List Char) (origLen : Nat) :
    ∀ (fuel base : Nat), fuel = cells.length - base →
      (searchInflatedGo cells origLen fuel text base).column =
      (List.range' base fuel).find? (fun j => List.isPrefixOf text (cells.drop j)) := by
  intro fuel
  induction fuel with
  | zero => intro base hfuel; rfl
  | succ fuel ih =>
    intro base hfuel
    have hb : base < cells.length := by omega
    simp only [searchInflatedGo]
    rw [if_pos hb, List.range'_succ base fuel 1]
    by_cases hpart : cells.length - base < text.length
    · rw [if_pos hpart]
      have hrhs : (base :: List.range' (base + 1) fuel).find?
          (fun j => List.isPrefixOf text (cells.drop j)) = none := by
        rw [List.find?_eq_none]
        intro j hj
        have hjb : base ≤ j := by
          rcases List.mem_cons.mp hj with h | h
          · omega
          · have := (List.mem_range'_1.mp h).1
            omega
        simp only [Bool.not_eq_true]
        apply isPrefixOf_eq_false_of_longer
        rw [List.length_drop]
        omega
      rw [hrhs]
      by_cases hm : matchTextAtInflated cells (text.take (cells.length - base)) base = true
      · rw [if_pos hm]
      · rw [if_neg hm]
        apply searchInflatedGo_partial_none
        simp only [List.length_take]
        omega
    · rw [if_neg hpart]
      have hfull : base + text.length ≤ cells.length := by omega
      rw [matchTextAtInflated_eq cells text base hfull, List.find?_cons]
      cases hm : List.isPrefixOf text (cells.drop base)
      · exact ih (base + 1) (by omega)
      · rfl

/-- The inflated branch of `Line::search` reports exactly the first full
occurrence at or after the start column. -/
theorem searchInflated_eq (cells text : List Char) (start : Nat) (htext : text ≠ []) :
    (searchInflated cells text start).column = firstOccurrenceAux cells text start := by
  unfold searchInflated
  by_cases hlen : cells.length < text.length
  · rw [if_pos hlen]
    show (none : Option Nat) = _
    symm
    unfold firstOccurrenceAux
    rw [List.find?_eq_none]
    intro j hj
    simp only [Bool.and_eq_true, decide_eq_true_eq, not_and]
    intro hsj
    simp only [Bool.not_eq_true]
    apply isPrefixOf_eq_false_of_longer
    rw [List.length_drop]
    omega
  · rw [if_neg hlen]
    rw [searchInflatedGo_eq_find? cells text text.length (cells.length - start) start rfl]
    unfold firstOccurrenceAux
    by_cases hs : start ≤ cells.length
    · rw [List.range_eq_range']
      have hsplit : cells.length + 1 = start + ((cells.length - start) + 1) := by omega
      rw [hsplit]
      have hshift := find?_range'_shift
        (fun j => List.isPrefixOf text (cells.drop j)) start 0 ((cells.length - start) + 1)
      simp only [Nat.zero_add] at hshift
      rw [hshift, show List.range' start (cells.length - start + 1) =
            List.range' start (cells.length - start) ++ [start + 1 * (cells.length - start)] from
            @List.range'_concat 1 start (cells.length - start), List.find?_append]
      have hlast : List.find? (fun j => List.isPrefixOf text (cells.drop j))
          [start + 1 * (cells.length - start)] = none := by
        rw [List.find?_eq_none]
        intro j hj
        simp only [List.mem_singleton] at hj
        subst hj
        simp only [Bool.not_eq_true]
        apply isPrefixOf_eq_false_of_longer
        rw [List.length_drop]
        have : 0 < text.length := List.length_pos.mpr htext
        omega
      rw [hlast, Option.or_none]
    · have hz : cells.length - start = 0 := by omega
      rw [hz]
      show (none : Option Nat) = _
      symm
      rw [List.find?_eq_none]
      intro j hj
      have := List.mem_range.mp hj
      simp only [Bool.and_eq_true, decide_eq_true_eq, not_and]
      intro hsj
      omega

/-! ### C6: `Line::search` and first occurrences -/

/-- C6 counterexample: on the trivial example line (display width 10, used
text `"aba"`), searching for `"a"` from start column 5 — a column within the
line — returns column 2, although no full occurrence of `"a"` exists at or
after column 5; the claim demands a result with no column here. -/
theorem search_before_startColumn :
    (Line.search exTrivialLine ['a'] 5).column = some 2 ∧
    firstOccurrenceAux exTrivialLine.chars ['a'] 5 = none ∧
    5 < exTrivialLine.size := by
  decide

/-- C6 (amended): for an inflated line, `Line::search(text, startColumn)`
returns exactly the column of the first full occurrence of the non-empty
text at or after the start column (and a column-free result when there is
none); for a trivially stored line the same holds with the start column
first clamped to the last used column, `min startColumn (usedColumns - 1)`,
so a start column beyond the used text can report an occurrence before it. -/
theorem search_finds_first_occurrence {Attr : Type} (l : Line Attr) (text : List Char)
    (start : Nat) (htext : text ≠ []) :
    (∀ cells, l.storage = LineStorage.inflatedB cells →
      (Line.search l text start).column = firstOccurrenceAux cells text start) ∧
    (∀ b, l.storage = LineStorage.trivialB b → b.text.length = b.usedColumns →
      (Line.search l text start).column =
        firstOccurrenceAux b.text text (min start (b.usedColumns - 1))) := by
  obtain ⟨storage, flags⟩ := l
  cases storage with
  | trivialB b =>
    constructor
    · intro cells hc
      simp at hc
    · intro b' hb' hwf
      injection hb' with hb
      subst hb
      exact searchTrivial_eq b text start htext hwf
  | inflatedB cells =>
    constructor
    · intro cells' hc
      injection hc with h
      subst h
      exact searchInflated_eq _ text start htext
    · intro b' hb' _
      simp at hb'

/-- C6 witness: the amended theorem at the example trivial line, pattern
`"b"` and start column 0. -/
theorem search_finds_first_occurrence_witness :
    (Line.search exTrivialLine ['b'] 0).column =
      firstOccurrenceAux exTrivialBuffer.text ['b']
        (min 0 (exTrivialBuffer.usedColumns - 1)) :=
  (search_finds_first_occurrence exTrivialLine ['b'] 0 (by decide)).2
    exTrivialBuffer rfl rfl

/-! ### C8: the `wrappedFlag` accessor -/

/-- C8: contrary to the claim (and to the evident intent of the accessor),
`Line::wrappedFlag` tests the `Marked` bit: a marked, non-wrapped line
reports `LineFlags::Wrapped`, and a wrapped, unmarked line reports
`LineFlags::None`. -/
theorem wrappedFlag_follows_marked_not_wrapped :
    exMarkedLine.wrapped = false ∧ exMarkedLine.wrappedFlag = LineFlags.Wrapped ∧
    exWrappedLine.wrapped = true ∧ exWrappedLine.wrappedFlag = LineFlags.None := by
  decide

end Contour
